import Mathlib

/-!
Verification development for an eBPF support library consisting of a
reference linker, a capability-probe collection and a kernel request
gateway.  Pure fragments of the Go source (`syscalls.go`) are translated
directly; the linker and symbol splitter, whose implementation is only
exercised by `linker_test.go` here, are modelled from the specification.
-/

namespace Ebpf

/-- Raw kernel error codes used by the probes and the map-error
translation in `syscalls.go`. -/
inductive Errno where
  | ENOENT
  | EEXIST
  | ENOTSUPP
  | E2BIG
  | EINVAL
  | EBADF
  | EPERM
  | EACCES
  | EAGAIN
deriving DecidableEq

/-- Outcome of a capability probe, as classified by the probe bodies in
`syscalls.go`: a `nil` error means supported, `internal.ErrNotSupported`
means the feature is absent, any other error is propagated as-is. -/
inductive FeatureResult where
  | supported
  | notSupported
  | otherError (e : Errno)
deriving DecidableEq

/-- Result of one kernel trial (`sys.MapCreate` / `sys.ProgLoad`): either
an error code or a fresh file descriptor. -/
abbrev TrialResult := Except Errno Nat

/-- File descriptors created by a trial: one on success, none on error. -/
def openedFDs : TrialResult → List Nat
  | .ok fd => [fd]
  | .error _ => []

/-- `haveNestedMaps` from `syscalls.go`: creates an array-of-maps with an
invalid inner map fd and classifies the error; the returned fd is
discarded (`_, err := sys.MapCreate(...)`), so nothing is ever closed.
The second component records the descriptors the probe closes. -/
def haveNestedMapsRun (isWindows : Bool) (mapCreate : TrialResult) :
    FeatureResult × List Nat :=
  if isWindows then (.supported, [])
  else
    match mapCreate with
    | .error .EINVAL => (.notSupported, [])
    | .error .EBADF => (.supported, [])
    | .error e => (.otherError e, [])
    | .ok _ => (.supported, [])

/-- `haveMmapableMaps` from `syscalls.go`: creates an array map with
`BPF_F_MMAPABLE`; any error at all is reported as `ErrNotSupported`, and
on success the map fd is closed before returning `nil`. -/
def haveMmapableMapsRun (mapCreate : TrialResult) : FeatureResult × List Nat :=
  match mapCreate with
  | .error _ => (.notSupported, [])
  | .ok fd => (.supported, [fd])

/-- `haveObjName` from `syscalls.go`: creates a map carrying a name; any
error is reported as `ErrNotSupported`, on success the fd is closed. -/
def haveObjNameRun (isWindows : Bool) (mapCreate : TrialResult) :
    FeatureResult × List Nat :=
  if isWindows then (.supported, [])
  else
    match mapCreate with
    | .error _ => (.notSupported, [])
    | .ok fd => (.supported, [fd])

/-- `haveBatchAPI` from `syscalls.go`: creates a hash map (closed via
`defer`), then attempts a batch update; any error of either step is
reported as `ErrNotSupported`. -/
def haveBatchAPIRun (mapCreate : TrialResult) (updateErr : Option Errno) :
    FeatureResult × List Nat :=
  match mapCreate with
  | .error _ => (.notSupported, [])
  | .ok fd =>
    match updateErr with
    | some _ => (.notSupported, [fd])
    | none => (.supported, [fd])

/-- `haveProgramExtInfos` from `syscalls.go`: loads a trivial program with
`FuncInfoCnt = 1` and an invalid BTF fd; `EBADF` means supported, `E2BIG`
means unsupported, anything else propagates.  The returned fd is
discarded (`_, err := sys.ProgLoad(...)`), so nothing is ever closed. -/
def haveProgramExtInfosRun (progLoad : TrialResult) : FeatureResult × List Nat :=
  match progLoad with
  | .error .EBADF => (.supported, [])
  | .error .E2BIG => (.notSupported, [])
  | .error e => (.otherError e, [])
  | .ok _ => (.supported, [])

/-- Errors flowing through `wrapMapError`: a raw kernel errno, one of the
pre-allocated `sys.Error` domain errors (which `errors.Is`-match both the
domain sentinel and their errno), or a `fmt.Errorf("...: %w", err)`
wrapper. -/
inductive MapError where
  | raw (e : Errno)
  | sysKeyNotExist
  | sysKeyExist
  | sysNotSupported
  | wrapped (msg : String) (cause : MapError)
deriving DecidableEq

/-- `errors.Is(err, e)` for a raw errno target: a `sys.Error` matches its
errno, a `fmt.Errorf` wrapper matches whatever its cause matches. -/
def errIs : MapError → Errno → Bool
  | .raw e', e => e' = e
  | .sysKeyNotExist, e => e = .ENOENT
  | .sysKeyExist, e => e = .EEXIST
  | .sysNotSupported, e => e = .ENOTSUPP
  | .wrapped _ cause, e => errIs cause e

/-- `errors.Unwrap`: exposes the cause of a `fmt.Errorf("...: %w", err)`
wrapper. -/
def unwrap : MapError → Option MapError
  | .wrapped _ cause => some cause
  | _ => none

/-- `wrapMapError` from `syscalls.go`, translated clause for clause. -/
def wrapMapError : Option MapError → Option MapError
  | none => none
  | some err =>
    if errIs err .ENOENT then some .sysKeyNotExist
    else if errIs err .EEXIST then some .sysKeyExist
    else if errIs err .ENOTSUPP then some .sysNotSupported
    else if errIs err .E2BIG then some (.wrapped "key too big for map" err)
    else some err

/-- The character cases of the `switch` in `sanitizeName`
(`syscalls.go`): ASCII letters, digits, dot and underscore are kept,
anything else maps to the replacement, which a negative value deletes
(the contract of `strings.Map`). -/
def sanitizeRune (replacement : Int) (char : Char) : Option Char :=
  if 'A' ≤ char ∧ char ≤ 'Z' then some char
  else if 'a' ≤ char ∧ char ≤ 'z' then some char
  else if '0' ≤ char ∧ char ≤ '9' then some char
  else if char = '.' then some char
  else if char = '_' then some char
  else if replacement < 0 then none
  else some (Char.ofNat replacement.toNat)

/-- `sanitizeName` from `syscalls.go`: `strings.Map` of `sanitizeRune`
over the name. -/
def sanitizeName (name : String) (replacement : Int) : String :=
  String.mk (name.toList.filterMap (sanitizeRune replacement))

/-- The allowed-character set of `sanitizeName`, as a predicate:
`A-Z`, `a-z`, `0-9`, dot and underscore. -/
def allowedChar (c : Char) : Bool :=
  decide (('A' ≤ c ∧ c ≤ 'Z') ∨ ('a' ≤ c ∧ c ≤ 'z') ∨ ('0' ≤ c ∧ c ≤ '9') ∨
    c = '.' ∨ c = '_')

/-- `strings.ReplaceAll(name, ".", "")`: drop every dot character. -/
def dropDots (s : String) : String :=
  String.mk (s.toList.filter (fun c => c != '.'))

/-- `maybeFillObjName` from `syscalls.go`.  The two probe outcomes are
passed in explicitly: `errors.Is(probe(), ErrNotSupported)` is exactly an
equality test against `FeatureResult.notSupported`. -/
def maybeFillObjName (objNameRes dotRes : FeatureResult) (name : String) : String :=
  if objNameRes = .notSupported then ""
  else
    let sanitized := sanitizeName name (-1)
    if dotRes = .notSupported then dropDots sanitized else sanitized

/-- One eBPF instruction as the linker sees it: an opaque fixed-shape
operation payload, the relocated signed call offset, and the two optional
tags (symbol / reference) of the data model. -/
structure Instruction where
  opcode : Nat
  offset : Int := 0
  symbol : Option String := none
  reference : Option String := none
deriving DecidableEq

/-- The reference tags of an instruction sequence, in order
(`Instructions.FunctionReferences` without the de-duplication, which the
traversal below makes irrelevant). -/
def referencesOf (insns : List Instruction) : List String :=
  insns.filterMap (·.reference)

/-- Look a program up by name in a universe of program specifications,
represented as an association list. -/
def lookupProg : List (String × List Instruction) → String → Option (List Instruction)
  | [], _ => none
  | (k, v) :: rest, n => if k = n then some v else lookupProg rest n

/-- The names of all programs in a universe. -/
def univNames (progs : List (String × List Instruction)) : List String :=
  progs.map (·.1)

/-- The instructions of a named program, empty when the name is absent
(a reference to an extern has no instructions to merge). -/
def insnsOf (progs : List (String × List Instruction)) (n : String) : List Instruction :=
  (lookupProg progs n).getD []

/-- The reference tags of the named program's instructions. -/
def refsOfName (progs : List (String × List Instruction)) (n : String) : List String :=
  referencesOf (insnsOf progs n)

/-- Modelled from the spec: the worklist traversal of the linker
(`flattenInstructions`, absent from the sources; only `linker_test.go` is
present).  Pending references are processed in order; a name still in
`remaining` (the not-yet-merged names) is emitted, removed from
`remaining`, and its own references are enqueued, so every referenced
subprogram is merged at most once even under cyclic reference. -/
def gather (progs : List (String × List Instruction)) :
    List String → List String → List String
  | [], _ => []
  | r :: pending, remaining =>
    if r ∈ remaining then
      r :: gather progs (pending ++ refsOfName progs r) (remaining.erase r)
    else
      gather progs pending remaining
termination_by pending remaining => (remaining.length, pending.length)
decreasing_by
  · apply Prod.Lex.left
    have := List.length_erase_add_one (show r ∈ remaining by assumption)
    omega
  · apply Prod.Lex.right
    simp

/-- Modelled from the spec: `flattenInstructions` (absent from the
sources).  An entry with no outstanding references is returned unchanged;
otherwise each transitively reachable subprogram's instructions are
appended after the entry's, each at most once. -/
def flattenInstructions (name : String) (progs : List (String × List Instruction)) :
    List Instruction :=
  match lookupProg progs name with
  | none => []
  | some entry =>
    if referencesOf entry = [] then entry
    else
      entry ++
        (gather progs (referencesOf entry) ((univNames progs).erase name)).flatMap
          (insnsOf progs)

/-- The ordered list of subprogram names whose instruction blocks make up
the flattened stream: the entry first, then the gathered references. -/
def mergedNames (progs : List (String × List Instruction)) (name : String) :
    List String :=
  match lookupProg progs name with
  | none => [name]
  | some entry =>
    if referencesOf entry = [] then [name]
    else name :: gather progs (referencesOf entry) ((univNames progs).erase name)

/-- Index of the first instruction carrying the given symbol tag. -/
def symbolIndex : List Instruction → String → Option Nat
  | [], _ => none
  | i :: rest, sym =>
    if i.symbol = some sym then some 0
    else (symbolIndex rest sym).map (· + 1)

/-- Modelled from the spec: relocation of a single call site at index `i`
of the merged stream — the signed instruction-index distance from the
call site to the resolved symbol, or an unsatisfied-reference error
naming the missing symbol. -/
def fixupOne (insns : List Instruction) (i : Nat) (ins : Instruction) :
    Except String Instruction :=
  match ins.reference with
  | none => .ok ins
  | some r =>
    match symbolIndex insns r with
    | none => .error r
    | some j => .ok { ins with offset := (j : Int) - (i : Int) }

/-- Relocate every call site of `l`, whose first element sits at index `k`
of the full stream `insns`. -/
def fixupFrom (insns : List Instruction) : Nat → List Instruction →
    Except String (List Instruction)
  | _, [] => .ok []
  | i, ins :: rest =>
    match fixupOne insns i ins with
    | .error e => .error e
    | .ok ins2 =>
      match fixupFrom insns (i + 1) rest with
      | .error e => .error e
      | .ok rest2 => .ok (ins2 :: rest2)

/-- Modelled from the spec: the relocation pass over a merged stream. -/
def fixupReferences (insns : List Instruction) : Except String (List Instruction) :=
  fixupFrom insns 0 insns

/-- Modelled from the spec: linking one entry — flatten the reachable
subprograms into one stream, then rewrite every reference-tagged
instruction into a position-relative call. -/
def linkProgram (progs : List (String × List Instruction)) (name : String) :
    Except String (List Instruction) :=
  fixupReferences (flattenInstructions name progs)

/-- The names reachable from the entry along reference edges. -/
inductive Reachable (progs : List (String × List Instruction)) (entry : String) :
    String → Prop
  | entry : Reachable progs entry entry
  | step {n r : String} : Reachable progs entry n → r ∈ refsOfName progs n →
      Reachable progs entry r

/-- The symbol tag of the first instruction of a block, if any. -/
def firstSymbol : List Instruction → Option String
  | [] => none
  | i :: _ => i.symbol

/-- Modelled from the spec: `splitSymbols` helper — scan from the right,
collecting instructions that precede the next symbol tag into the
pending block. -/
def splitAux : List Instruction → List Instruction × List (String × List Instruction)
  | [] => ([], [])
  | i :: rest =>
    let (pend, blocks) := splitAux rest
    match i.symbol with
    | some s => ([], (s, i :: pend) :: blocks)
    | none => (i :: pend, blocks)

/-- The symbol tags of an instruction sequence, in order. -/
def symbolTags (insns : List Instruction) : List String :=
  insns.filterMap (·.symbol)

/-- Modelled from the spec: `splitSymbols` (absent from the sources) —
partition a flat stream into named contiguous blocks, one per symbol tag,
failing on empty input, on an untagged first instruction, and on a
duplicate symbol name. -/
def splitSymbols (insns : List Instruction) :
    Except String (List (String × List Instruction)) :=
  match insns with
  | [] => .error "missing leading symbol"
  | i :: rest =>
    match i.symbol with
    | none => .error "missing leading symbol"
    | some s =>
      let blocks := (s, i :: (splitAux rest).1) :: (splitAux rest).2
      if (blocks.map Prod.fst).Nodup then .ok blocks
      else .error "duplicate symbol"

/-! ### Concrete inputs drawn from `linker_test.go` -/

/-- Program `A` of the mutual-reference scenario: its first instruction
carries symbol `A` and calls `B`. -/
def abProgA : List Instruction :=
  [{ opcode := 2, symbol := some "A", reference := some "B" }, { opcode := 3 }]

/-- Program `B` of the mutual-reference scenario: its first instruction
carries symbol `B` and calls back into `A`. -/
def abProgB : List Instruction :=
  [{ opcode := 2, symbol := some "B", reference := some "A" }, { opcode := 3 }]

/-- The cyclic universe of `TestFindReferences`-style mutual reference. -/
def abUniv : List (String × List Instruction) := [("A", abProgA), ("B", abProgB)]

/-- The reference-free entry of `TestFlattenInstructionsAllocations`:
a load followed by a return, no tags at all. -/
def soloIns : List Instruction := [{ opcode := 24 }, { opcode := 3 }]

/-- The singleton universe of `TestFlattenInstructionsAllocations`. -/
def soloUniv : List (String × List Instruction) := [("entrypoint", soloIns)]

/-- The entry of `TestForwardFunctionDeclaration`: a call to the
undefined forward declaration `fwd`, then a return. -/
def fwdCallIns : List Instruction :=
  [{ opcode := 2, reference := some "fwd" }, { opcode := 3 }]

/-- The universe in which `fwd` has no definition. -/
def fwdUniv : List (String × List Instruction) := [("call_fwd", fwdCallIns)]

/-- The implementation of `fwd()` appended by the test: a move carrying
the missing symbol, then a return. -/
def fwdExt : List Instruction :=
  [{ opcode := 7, symbol := some "fwd" }, { opcode := 3 }]

/-- The same universe after the test appends the definition of `fwd`. -/
def fwdUnivFixed : List (String × List Instruction) :=
  [("call_fwd", fwdCallIns ++ fwdExt)]

/-- The four-block input of `TestSplitSymbols`: blocks of lengths
1, 2, 3 and 4 tagged `sym1` .. `sym4`. -/
def splitInput4 : List Instruction :=
  [{ opcode := 3, symbol := some "sym1" },
   { opcode := 0, symbol := some "sym2" }, { opcode := 3 },
   { opcode := 0, symbol := some "sym3" }, { opcode := 1 }, { opcode := 3 },
   { opcode := 0, symbol := some "sym4" }, { opcode := 1 }, { opcode := 2 },
   { opcode := 3 }]

/-! ## Lemmas -/

/-- `sanitizeRune` restated through the allowed-character predicate. -/
theorem sanitizeRune_eq (r : Int) (c : Char) :
    sanitizeRune r c =
      if allowedChar c then some c
      else if r < 0 then none else some (Char.ofNat r.toNat) := by
  have hA : (allowedChar c = true) ↔
      (('A' ≤ c ∧ c ≤ 'Z') ∨ ('a' ≤ c ∧ c ≤ 'z') ∨ ('0' ≤ c ∧ c ≤ '9') ∨
        c = '.' ∨ c = '_') := by
    simp [allowedChar]
  unfold sanitizeRune
  by_cases h1 : 'A' ≤ c ∧ c ≤ 'Z'
  · rw [if_pos h1, if_pos (hA.mpr (Or.inl h1))]
  rw [if_neg h1]
  by_cases h2 : 'a' ≤ c ∧ c ≤ 'z'
  · rw [if_pos h2, if_pos (hA.mpr (Or.inr (Or.inl h2)))]
  rw [if_neg h2]
  by_cases h3 : '0' ≤ c ∧ c ≤ '9'
  · rw [if_pos h3, if_pos (hA.mpr (Or.inr (Or.inr (Or.inl h3))))]
  rw [if_neg h3]
  by_cases h4 : c = '.'
  · rw [if_pos h4, if_pos (hA.mpr (Or.inr (Or.inr (Or.inr (Or.inl h4)))))]
  rw [if_neg h4]
  by_cases h5 : c = '_'
  · rw [if_pos h5, if_pos (hA.mpr (Or.inr (Or.inr (Or.inr (Or.inr h5)))))]
  rw [if_neg h5]
  have hfalse : ¬ (allowedChar c = true) := by
    rw [hA]
    rintro (h | h | h | h | h)
    · exact h1 h
    · exact h2 h
    · exact h3 h
    · exact h4 h
    · exact h5 h
  rw [if_neg hfalse]

/-- A character produced by `sanitizeRune` is a fixed point of it. -/
theorem sanitizeRune_fix (r : Int) (c c' : Char)
    (h : sanitizeRune r c = some c') : sanitizeRune r c' = some c' := by
  rw [sanitizeRune_eq] at h ⊢
  by_cases hc : allowedChar c
  · rw [if_pos hc] at h
    obtain rfl : c = c' := by simpa using h
    rw [if_pos hc]
  · rw [if_neg hc] at h
    by_cases hr : r < 0
    · simp [hr] at h
    · rw [if_neg hr] at h
      have hceq : c' = Char.ofNat r.toNat := by simpa using h.symm
      subst hceq
      by_cases hc2 : allowedChar (Char.ofNat r.toNat)
      · rw [if_pos hc2]
      · rw [if_neg hc2, if_neg hr]

/-- A `filterMap` whose image consists of fixed points is idempotent. -/
theorem filterMap_fixpoint {f : Char → Option Char}
    (hf : ∀ c c', f c = some c' → f c' = some c') :
    ∀ l : List Char, (l.filterMap f).filterMap f = l.filterMap f := by
  intro l
  induction l with
  | nil => simp
  | cons c rest ih =>
    cases h : f c with
    | none => simp [h, ih]
    | some c' => simp [h, hf c c' h, ih]

/-- A successful lookup means the name is among the universe's names. -/
theorem lookupProg_mem {progs : List (String × List Instruction)} {n : String}
    {v : List Instruction} (h : lookupProg progs n = some v) :
    n ∈ univNames progs := by
  induction progs with
  | nil => simp [lookupProg] at h
  | cons p rest ih =>
    obtain ⟨k, w⟩ := p
    rw [show univNames ((k, w) :: rest) = k :: univNames rest from rfl]
    unfold lookupProg at h
    by_cases hk : k = n
    · exact hk ▸ List.mem_cons_self _ _
    · rw [if_neg hk] at h
      exact List.mem_cons_of_mem _ (ih h)

/-- `symbolIndex` returns an index whose instruction carries the symbol. -/
theorem symbolIndex_some_spec {insns : List Instruction} {sym : String} :
    ∀ {j : Nat}, symbolIndex insns sym = some j →
      ∃ hj : j < insns.length, (insns.get ⟨j, hj⟩).symbol = some sym := by
  induction insns with
  | nil => intro j h; simp [symbolIndex] at h
  | cons i rest ih =>
    intro j h
    unfold symbolIndex at h
    by_cases hi : i.symbol = some sym
    · rw [if_pos hi] at h
      obtain rfl : 0 = j := by simpa using h
      exact ⟨Nat.succ_pos _, hi⟩
    · rw [if_neg hi] at h
      cases hrest : symbolIndex rest sym with
      | none => rw [hrest] at h; simp at h
      | some j0 =>
        rw [hrest] at h
        obtain rfl : j0 + 1 = j := by simpa using h
        obtain ⟨hlt, hsym⟩ := ih hrest
        exact ⟨Nat.succ_lt_succ hlt, by simpa [List.get_cons_succ] using hsym⟩

/-- If an instruction of the stream carries the symbol, `symbolIndex`
finds one. -/
theorem symbolIndex_isSome_of_mem {insns : List Instruction} {ins : Instruction}
    {sym : String} (hmem : ins ∈ insns) (hsym : ins.symbol = some sym) :
    (symbolIndex insns sym).isSome := by
  induction insns with
  | nil => cases hmem
  | cons i rest ih =>
    unfold symbolIndex
    by_cases hi : i.symbol = some sym
    · rw [if_pos hi]; rfl
    · rw [if_neg hi]
      rcases List.mem_cons.mp hmem with rfl | hmem2
      · exact absurd hsym hi
      · have h2 := ih hmem2
        cases h : symbolIndex rest sym with
        | none => rw [h] at h2; simp at h2
        | some j => rfl

/-- When no instruction carries the symbol, `symbolIndex` finds none. -/
theorem symbolIndex_none_of_absent {insns : List Instruction} {sym : String}
    (h : ∀ ins ∈ insns, ins.symbol ≠ some sym) :
    symbolIndex insns sym = none := by
  induction insns with
  | nil => rfl
  | cons i rest ih =>
    unfold symbolIndex
    rw [if_neg (h i (List.mem_cons_self _ _)),
      ih (fun x hx => h x (List.mem_cons_of_mem _ hx))]
    rfl

/-- Relocation succeeds when every reference of the block has a symbol in
the stream. -/
theorem fixupFrom_ok_of_sat {insns : List Instruction} :
    ∀ (l : List Instruction) (k : Nat),
      (∀ ins ∈ l, ∀ r, ins.reference = some r → (symbolIndex insns r).isSome) →
      ∃ out, fixupFrom insns k l = .ok out := by
  intro l
  induction l with
  | nil => exact fun k _ => ⟨[], rfl⟩
  | cons ins rest ih =>
    intro k hsat
    obtain ⟨out, hout⟩ := ih (k + 1) (fun x hx => hsat x (List.mem_cons_of_mem _ hx))
    cases href : ins.reference with
    | none =>
      refine ⟨ins :: out, ?_⟩
      simp [fixupFrom, fixupOne, href, hout]
    | some r =>
      have hidx := hsat ins (List.mem_cons_self _ _) r href
      obtain ⟨j, hj⟩ := Option.isSome_iff_exists.mp hidx
      refine ⟨{ ins with offset := (j : Int) - (k : Int) } :: out, ?_⟩
      simp [fixupFrom, fixupOne, href, hj, hout]

/-- What a successful relocation pass produces: same length, symbols and
references preserved pointwise, and every reference-tagged slot rewritten
to the signed distance from its own index to its target's index. -/
theorem fixupFrom_ok_spec {insns : List Instruction} :
    ∀ (l : List Instruction) (k : Nat) (out : List Instruction),
      fixupFrom insns k l = .ok out →
      out.length = l.length ∧
      ∀ idx (h : idx < l.length) (h2 : idx < out.length),
        (out.get ⟨idx, h2⟩).symbol = (l.get ⟨idx, h⟩).symbol ∧
        (out.get ⟨idx, h2⟩).reference = (l.get ⟨idx, h⟩).reference ∧
        ∀ r, (l.get ⟨idx, h⟩).reference = some r →
          ∃ j, symbolIndex insns r = some j ∧
            (out.get ⟨idx, h2⟩).offset = (j : Int) - ((k + idx : Nat) : Int) := by
  intro l
  induction l with
  | nil =>
    intro k out h
    obtain rfl : ([] : List Instruction) = out := by simpa [fixupFrom] using h
    exact ⟨rfl, fun idx h => absurd h (Nat.not_lt_zero idx)⟩
  | cons ins rest ih =>
    intro k out h
    simp only [fixupFrom] at h
    cases hone : fixupOne insns k ins with
    | error e => rw [hone] at h; simp at h
    | ok ins2 =>
      rw [hone] at h
      cases hrest : fixupFrom insns (k + 1) rest with
      | error e => rw [hrest] at h; simp at h
      | ok out2 =>
        rw [hrest] at h
        obtain rfl : ins2 :: out2 = out := by simpa using h
        obtain ⟨hlen2, hspec2⟩ := ih (k + 1) out2 hrest
        refine ⟨by simp [hlen2], ?_⟩
        intro idx h1 h2
        cases idx with
        | zero =>
          cases href : ins.reference with
          | none =>
            obtain rfl : ins = ins2 := by
              simpa [fixupOne, href] using hone
            refine ⟨rfl, rfl, ?_⟩
            intro r hr
            rw [show ((ins :: rest).get ⟨0, h1⟩) = ins from rfl, href] at hr
            cases hr
          | some r0 =>
            cases hidx : symbolIndex insns r0 with
            | none => simp [fixupOne, href, hidx] at hone
            | some j =>
              obtain rfl : { ins with offset := (j : Int) - (k : Int) } = ins2 := by
                simpa [fixupOne, href, hidx] using hone
              refine ⟨rfl, rfl, ?_⟩
              intro r hr
              rw [show ((ins :: rest).get ⟨0, h1⟩) = ins from rfl, href] at hr
              obtain rfl : r0 = r := by simpa using hr
              exact ⟨j, hidx, by simp⟩
        | succ m =>
          have h1r : m < rest.length := by simpa using Nat.lt_of_succ_lt_succ h1
          have h2r : m < out2.length := by simpa using Nat.lt_of_succ_lt_succ h2
          obtain ⟨hs, hrf, hoff⟩ := hspec2 m h1r h2r
          rw [List.get_cons_succ, List.get_cons_succ]
          refine ⟨hs, hrf, ?_⟩
          intro r hr
          obtain ⟨j, hj, hoffj⟩ := hoff r hr
          refine ⟨j, hj, ?_⟩
          rw [hoffj]
          congr 1
          omega

/-- When the only unsatisfiable reference of the block is `r` and some
instruction carries it, relocation fails naming exactly `r`. -/
theorem fixupFrom_error_of {insns : List Instruction} {r : String}
    (hnone : symbolIndex insns r = none) :
    ∀ (l : List Instruction) (k : Nat),
      (∀ ins ∈ l, ∀ r2, ins.reference = some r2 → symbolIndex insns r2 = none → r2 = r) →
      (∃ ins ∈ l, ins.reference = some r) →
      fixupFrom insns k l = .error r := by
  intro l
  induction l with
  | nil =>
    intro k _ hex
    obtain ⟨ins, h, _⟩ := hex
    cases h
  | cons ins rest ih =>
    intro k hall hex
    cases href : ins.reference with
    | none =>
      have hex2 : ∃ x ∈ rest, x.reference = some r := by
        obtain ⟨x, hx, hxr⟩ := hex
        rcases List.mem_cons.mp hx with rfl | hx2
        · rw [href] at hxr; cases hxr
        · exact ⟨x, hx2, hxr⟩
      have hrec := ih (k + 1) (fun x hx => hall x (List.mem_cons_of_mem _ hx)) hex2
      simp [fixupFrom, fixupOne, href, hrec]
    | some r2 =>
      cases hidx : symbolIndex insns r2 with
      | none =>
        obtain rfl : r2 = r := hall ins (List.mem_cons_self _ _) r2 href hidx
        simp [fixupFrom, fixupOne, href, hidx]
      | some j =>
        have hex2 : ∃ x ∈ rest, x.reference = some r := by
          obtain ⟨x, hx, hxr⟩ := hex
          rcases List.mem_cons.mp hx with rfl | hx2
          · rw [href] at hxr
            obtain rfl : r2 = r := by simpa using hxr
            rw [hidx] at hnone
            cases hnone
          · exact ⟨x, hx2, hxr⟩
        have hrec := ih (k + 1) (fun x hx => hall x (List.mem_cons_of_mem _ hx)) hex2
        simp [fixupFrom, fixupOne, href, hidx, hrec]

/-- The worklist traversal visits only names of `remaining`, visits each
at most once, visits every pending name still in `remaining`, and is
closed under references that lie in `remaining`. -/
theorem gather_spec (progs : List (String × List Instruction)) :
    ∀ (pending remaining : List String), remaining.Nodup →
      (∀ x ∈ gather progs pending remaining, x ∈ remaining) ∧
      (gather progs pending remaining).Nodup ∧
      (∀ p ∈ pending, p ∈ remaining → p ∈ gather progs pending remaining) ∧
      (∀ x ∈ gather progs pending remaining, ∀ r ∈ refsOfName progs x,
        r ∈ remaining → r ∈ gather progs pending remaining) := by
  intro pending remaining
  induction pending, remaining using gather.induct progs with
  | case1 remaining =>
    intro _
    refine ⟨?_, ?_, ?_, ?_⟩ <;> simp [gather]
  | case2 r pending remaining hmem ih =>
    intro hnodup
    have hnd2 : (remaining.erase r).Nodup := hnodup.erase _
    obtain ⟨ih1, ih2, ih3, ih4⟩ := ih hnd2
    have heq : gather progs (r :: pending) remaining =
        r :: gather progs (pending ++ refsOfName progs r) (remaining.erase r) := by
      rw [gather, if_pos hmem]
    refine ⟨?_, ?_, ?_, ?_⟩
    · intro x hx
      rw [heq] at hx
      rcases List.mem_cons.mp hx with rfl | hx2
      · exact hmem
      · exact List.mem_of_mem_erase (ih1 x hx2)
    · rw [heq]
      refine List.nodup_cons.mpr ⟨?_, ih2⟩
      intro hr
      exact ((hnodup.mem_erase_iff).mp (ih1 r hr)).1 rfl
    · intro p hp hpin
      rw [heq]
      rcases List.mem_cons.mp hp with rfl | hp2
      · exact List.mem_cons_self _ _
      · by_cases hpr : p = r
        · exact hpr ▸ List.mem_cons_self _ _
        · exact List.mem_cons_of_mem _
            (ih3 p (List.mem_append_left _ hp2) ((List.mem_erase_of_ne hpr).mpr hpin))
    · intro x hx s hs hsin
      rw [heq] at hx ⊢
      by_cases hsr : s = r
      · exact hsr ▸ List.mem_cons_self _ _
      · rcases List.mem_cons.mp hx with rfl | hx2
        · exact List.mem_cons_of_mem _
            (ih3 s (List.mem_append_right _ hs) ((List.mem_erase_of_ne hsr).mpr hsin))
        · exact List.mem_cons_of_mem _
            (ih4 x hx2 s hs ((List.mem_erase_of_ne hsr).mpr hsin))
  | case3 r pending remaining hmem ih =>
    intro hnodup
    obtain ⟨ih1, ih2, ih3, ih4⟩ := ih hnodup
    have heq : gather progs (r :: pending) remaining =
        gather progs pending remaining := by
      rw [gather, if_neg hmem]
    refine ⟨?_, ?_, ?_, ?_⟩
    · intro x hx; rw [heq] at hx; exact ih1 x hx
    · rw [heq]; exact ih2
    · intro p hp hpin
      rw [heq]
      rcases List.mem_cons.mp hp with rfl | hp2
      · exact absurd hpin hmem
      · exact ih3 p hp2 hpin
    · intro x hx s hs hsin
      rw [heq] at hx ⊢
      exact ih4 x hx s hs hsin

/-- Every name the traversal visits is reachable, provided every pending
name is. -/
theorem gather_sound (progs : List (String × List Instruction)) (entry : String) :
    ∀ (pending remaining : List String),
      (∀ p ∈ pending, Reachable progs entry p) →
      ∀ x ∈ gather progs pending remaining, Reachable progs entry x := by
  intro pending remaining
  induction pending, remaining using gather.induct progs with
  | case1 remaining =>
    intro _ x hx
    rw [gather] at hx
    cases hx
  | case2 r pending remaining hmem ih =>
    intro hp x hx
    rw [gather, if_pos hmem] at hx
    rcases List.mem_cons.mp hx with rfl | hx2
    · exact hp x (List.mem_cons_self _ _)
    · refine ih ?_ x hx2
      intro q hq
      rcases List.mem_append.mp hq with hq2 | hq2
      · exact hp q (List.mem_cons_of_mem _ hq2)
      · exact Reachable.step (hp r (List.mem_cons_self _ _)) hq2
  | case3 r pending remaining hmem ih =>
    intro hp x hx
    rw [gather, if_neg hmem] at hx
    exact ih (fun q hq => hp q (List.mem_cons_of_mem _ hq)) x hx

/-- The traversal only consults the references of names in `remaining`,
so two universes that agree there produce the same visit order. -/
theorem gather_congr (progs progs2 : List (String × List Instruction)) :
    ∀ (pending remaining : List String),
      (∀ x ∈ remaining, refsOfName progs2 x = refsOfName progs x) →
      gather progs2 pending remaining = gather progs pending remaining := by
  intro pending remaining
  induction pending, remaining using gather.induct progs with
  | case1 remaining =>
    intro _
    rw [gather, gather]
  | case2 r pending remaining hmem ih =>
    intro hag
    rw [gather, gather, if_pos hmem, if_pos hmem, hag r hmem]
    rw [ih (fun x hx => hag x (List.mem_of_mem_erase hx))]
  | case3 r pending remaining hmem ih =>
    intro hag
    rw [gather, gather, if_neg hmem, if_neg hmem]
    exact ih hag

/-- `mergedNames` as an explicit conditional once the entry resolves. -/
theorem mergedNames_eq (progs : List (String × List Instruction)) (entry : String)
    (entryInsns : List Instruction) (hentry : lookupProg progs entry = some entryInsns) :
    mergedNames progs entry =
      if referencesOf entryInsns = [] then [entry]
      else entry ::
        gather progs (referencesOf entryInsns) ((univNames progs).erase entry) := by
  unfold mergedNames
  rw [hentry]

/-- `flattenInstructions` as an explicit conditional once the entry
resolves. -/
theorem flattenInstructions_eq (progs : List (String × List Instruction))
    (entry : String) (entryInsns : List Instruction)
    (hentry : lookupProg progs entry = some entryInsns) :
    flattenInstructions entry progs =
      if referencesOf entryInsns = [] then entryInsns
      else entryInsns ++
        (gather progs (referencesOf entryInsns) ((univNames progs).erase entry)).flatMap
          (insnsOf progs) := by
  unfold flattenInstructions
  rw [hentry]

/-- The flattened stream is the concatenation of the merged names'
instruction blocks, in order. -/
theorem flatten_eq_flatMap (progs : List (String × List Instruction)) (entry : String)
    (entryInsns : List Instruction) (hentry : lookupProg progs entry = some entryInsns) :
    flattenInstructions entry progs =
      (mergedNames progs entry).flatMap (insnsOf progs) := by
  rw [flattenInstructions_eq progs entry entryInsns hentry,
    mergedNames_eq progs entry entryInsns hentry]
  by_cases href : referencesOf entryInsns = [] <;>
    simp [href, insnsOf, hentry]

/-- Every merged name is reachable from the entry. -/
theorem mergedNames_sound (progs : List (String × List Instruction)) (entry : String)
    (entryInsns : List Instruction) (hentry : lookupProg progs entry = some entryInsns) :
    ∀ n ∈ mergedNames progs entry, Reachable progs entry n := by
  intro n hn
  rw [mergedNames_eq progs entry entryInsns hentry] at hn
  by_cases href : referencesOf entryInsns = []
  · rw [if_pos href] at hn
    obtain rfl : n = entry := by simpa using hn
    exact .entry
  · rw [if_neg href] at hn
    rcases List.mem_cons.mp hn with rfl | hn2
    · exact .entry
    · refine gather_sound progs entry _ _ ?_ n hn2
      intro p hp
      refine Reachable.step .entry ?_
      simpa [refsOfName, insnsOf, hentry] using hp

/-- Every reachable name that has a program in the universe is merged. -/
theorem reachable_mem_mergedNames (progs : List (String × List Instruction))
    (entry : String) (entryInsns : List Instruction)
    (hnodup : (univNames progs).Nodup)
    (hentry : lookupProg progs entry = some entryInsns) :
    ∀ n, Reachable progs entry n → (lookupProg progs n).isSome →
      n ∈ mergedNames progs entry := by
  have hrefs_entry : refsOfName progs entry = referencesOf entryInsns := by
    simp [refsOfName, insnsOf, hentry]
  intro n hreach
  induction hreach with
  | entry =>
    intro _
    rw [mergedNames_eq progs entry entryInsns hentry]
    by_cases href : referencesOf entryInsns = [] <;> simp [href]
  | @step m r hm hr ih =>
    intro hsome
    have hmsome : (lookupProg progs m).isSome := by
      by_contra hno
      rw [Option.not_isSome_iff_eq_none] at hno
      rw [refsOfName, insnsOf, hno] at hr
      simp [referencesOf] at hr
    have hmmem := ih hmsome
    rw [mergedNames_eq progs entry entryInsns hentry] at hmmem ⊢
    by_cases href : referencesOf entryInsns = []
    · rw [if_pos href] at hmmem
      obtain rfl : m = entry := by simpa using hmmem
      rw [hrefs_entry, href] at hr
      cases hr
    · rw [if_neg href] at hmmem ⊢
      obtain ⟨g1, g2, g3, g4⟩ :=
        gather_spec progs (referencesOf entryInsns) ((univNames progs).erase entry)
          (hnodup.erase _)
      by_cases hre : r = entry
      · exact hre ▸ List.mem_cons_self _ _
      · obtain ⟨v, hv⟩ := Option.isSome_iff_exists.mp hsome
        have hrnames : r ∈ univNames progs := lookupProg_mem hv
        have hrin : r ∈ (univNames progs).erase entry :=
          (List.mem_erase_of_ne hre).mpr hrnames
        rcases List.mem_cons.mp hmmem with rfl | hm2
        · rw [hrefs_entry] at hr
          exact List.mem_cons_of_mem _ (g3 r hr hrin)
        · exact List.mem_cons_of_mem _ (g4 m hm2 r hr hrin)

/-- The merged names are pairwise distinct: no subprogram's block is
appended twice. -/
theorem mergedNames_nodup (progs : List (String × List Instruction)) (entry : String)
    (entryInsns : List Instruction) (hnodup : (univNames progs).Nodup)
    (hentry : lookupProg progs entry = some entryInsns) :
    (mergedNames progs entry).Nodup := by
  rw [mergedNames_eq progs entry entryInsns hentry]
  by_cases href : referencesOf entryInsns = []
  · simp [href]
  · rw [if_neg href]
    obtain ⟨g1, g2, _, _⟩ :=
      gather_spec progs (referencesOf entryInsns) ((univNames progs).erase entry)
        (hnodup.erase _)
    refine List.nodup_cons.mpr ⟨?_, g2⟩
    intro hentryG
    exact ((hnodup.mem_erase_iff).mp (g1 entry hentryG)).1 rfl

/-- Mapping a block-valued function over a list only consults the list's
members. -/
theorem flatMap_congr_mem {α β : Type} {f g : α → List β} :
    ∀ l : List α, (∀ x ∈ l, f x = g x) → l.flatMap f = l.flatMap g := by
  intro l
  induction l with
  | nil => intro _; rfl
  | cons x rest ih =>
    intro h
    rw [List.flatMap_cons, List.flatMap_cons, h x (List.mem_cons_self _ _),
      ih (fun y hy => h y (List.mem_cons_of_mem _ hy))]

/-! ## Claims about the capability probes and the request gateway -/

/-- Claim C10: `sanitizeName` is idempotent — a second sanitization pass
with the same replacement leaves the output of the first pass
unchanged, for every string and every replacement rune. -/
theorem sanitizeName_idempotent (s : String) (r : Int) :
    sanitizeName (sanitizeName s r) r = sanitizeName s r := by
  unfold sanitizeName
  have htl : (String.mk (s.toList.filterMap (sanitizeRune r))).toList =
      s.toList.filterMap (sanitizeRune r) := rfl
  rw [htl, filterMap_fixpoint (sanitizeRune_fix r)]

/-- Claim C5: `sanitizeName` keeps exactly `A-Z`, `a-z`, `0-9`, dot and
underscore, deleting every other character when the substitute is
negative and replacing it with the substitute otherwise; and
`maybeFillObjName` submits the empty name when the named-objects probe is
unsupported, and strips dots after sanitization when that probe is
supported but the dot-in-names probe is unsupported. -/
theorem nameHandling_spec :
    (∀ (name : String) (r : Int), r < 0 →
      (sanitizeName name r).toList = name.toList.filter allowedChar) ∧
    (∀ (name : String) (r : Int), 0 ≤ r →
      (sanitizeName name r).toList =
        name.toList.map (fun c => if allowedChar c then c else Char.ofNat r.toNat)) ∧
    (∀ (name : String) (dotRes : FeatureResult),
      maybeFillObjName .notSupported dotRes name = "") ∧
    (∀ name : String,
      maybeFillObjName .supported .notSupported name =
        dropDots (sanitizeName name (-1))) := by
  refine ⟨?_, ?_, ?_, ?_⟩
  · intro name r hr
    show (name.toList.filterMap (sanitizeRune r)) = _
    induction name.toList with
    | nil => simp
    | cons c rest ih =>
      by_cases hc : allowedChar c <;>
        simp [sanitizeRune_eq, hc, hr, ih, List.filter_cons]
  · intro name r hr
    have hr' : ¬ r < 0 := not_lt.mpr hr
    show (name.toList.filterMap (sanitizeRune r)) = _
    induction name.toList with
    | nil => simp
    | cons c rest ih =>
      by_cases hc : allowedChar c <;> simp [sanitizeRune_eq, hc, hr', ih]
  · intro name dotRes
    simp [maybeFillObjName]
  · intro name
    simp [maybeFillObjName]

/-- Witness for claim C5 at concrete inputs. -/
theorem nameHandling_spec_witness :
    ((-1 : Int) < 0 ∧
      (sanitizeName "my-map.v1!" (-1)).toList = "my-map.v1!".toList.filter allowedChar) ∧
    ((0 : Int) ≤ 95 ∧
      (sanitizeName "my-map" 95).toList =
        "my-map".toList.map (fun c => if allowedChar c then c else Char.ofNat (95 : Int).toNat)) :=
  ⟨⟨by decide, nameHandling_spec.1 "my-map.v1!" (-1) (by decide)⟩,
   ⟨by decide, nameHandling_spec.2.1 "my-map" 95 (by decide)⟩⟩

/-- Claim C4: `wrapMapError` translates `ENOENT` to the key-not-exist
domain error, `EEXIST` to the key-exist domain error, `ENOTSUPP` to the
dedicated NotSupported error, wraps `E2BIG` in a descriptive message
whose cause remains inspectable by unwrapping, keeps `nil` as `nil`, and
returns every other error unmodified. -/
theorem wrapMapError_spec :
    wrapMapError none = none ∧
    wrapMapError (some (.raw .ENOENT)) = some .sysKeyNotExist ∧
    wrapMapError (some (.raw .EEXIST)) = some .sysKeyExist ∧
    wrapMapError (some (.raw .ENOTSUPP)) = some .sysNotSupported ∧
    wrapMapError (some (.raw .E2BIG)) =
      some (.wrapped "key too big for map" (.raw .E2BIG)) ∧
    unwrap (.wrapped "key too big for map" (.raw .E2BIG)) = some (.raw .E2BIG) ∧
    (∀ e : Errno, e ≠ .ENOENT → e ≠ .EEXIST → e ≠ .ENOTSUPP → e ≠ .E2BIG →
      wrapMapError (some (.raw e)) = some (.raw e)) := by
  refine ⟨rfl, rfl, rfl, rfl, rfl, rfl, ?_⟩
  intro e h1 h2 h3 h4
  cases e <;> simp_all [wrapMapError, errIs]

/-- Witness for claim C4: the passthrough clause at `EPERM`. -/
theorem wrapMapError_spec_witness :
    (Errno.EPERM ≠ Errno.ENOENT ∧ Errno.EPERM ≠ Errno.EEXIST ∧
      Errno.EPERM ≠ Errno.ENOTSUPP ∧ Errno.EPERM ≠ Errno.E2BIG) ∧
    wrapMapError (some (.raw .EPERM)) = some (.raw .EPERM) :=
  ⟨⟨by decide, by decide, by decide, by decide⟩,
   wrapMapError_spec.2.2.2.2.2.2 .EPERM (by decide) (by decide) (by decide) (by decide)⟩

/-- Claim C3 counterexample: `haveMmapableMaps` coerces a failure that is
not the malformed-rejection signal (`EACCES`, e.g. a permission
failure) into the unsupported outcome instead of propagating it. -/
theorem haveMmapableMaps_coerces_other_errors :
    (haveMmapableMapsRun (Except.error Errno.EACCES)).1 = FeatureResult.notSupported ∧
    FeatureResult.notSupported ≠ FeatureResult.otherError Errno.EACCES := by
  exact ⟨rfl, by decide⟩

/-- Claim C3 (amended): only the deliberately-invalid-input probes
(`haveNestedMaps`, `haveProgramExtInfos`) propagate failures other than
their classification signals as plain errors; the plain create-and-close
probes (`haveMmapableMaps`, `haveObjName`) report unsupported on any
creation failure whatsoever. -/
theorem probeErrorPropagation :
    (∀ e : Errno, e ≠ .EINVAL → e ≠ .EBADF →
      (haveNestedMapsRun false (Except.error e)).1 = .otherError e) ∧
    (∀ e : Errno, e ≠ .E2BIG → e ≠ .EBADF →
      (haveProgramExtInfosRun (Except.error e)).1 = .otherError e) ∧
    (∀ e : Errno, (haveMmapableMapsRun (Except.error e)).1 = .notSupported) ∧
    (∀ e : Errno, (haveObjNameRun false (Except.error e)).1 = .notSupported) := by
  refine ⟨?_, ?_, ?_, ?_⟩
  · intro e h1 h2
    cases e <;> simp_all [haveNestedMapsRun]
  · intro e h1 h2
    cases e <;> simp_all [haveProgramExtInfosRun]
  · intro e
    cases e <;> rfl
  · intro e
    cases e <;> rfl

/-- Witness for the amended claim C3 at `EACCES`. -/
theorem probeErrorPropagation_witness :
    (Errno.EACCES ≠ Errno.EINVAL ∧ Errno.EACCES ≠ Errno.EBADF ∧
      (haveNestedMapsRun false (Except.error Errno.EACCES)).1 =
        FeatureResult.otherError Errno.EACCES) ∧
    (Errno.EACCES ≠ Errno.E2BIG ∧
      (haveProgramExtInfosRun (Except.error Errno.EACCES)).1 =
        FeatureResult.otherError Errno.EACCES) :=
  ⟨⟨by decide, by decide,
    probeErrorPropagation.1 .EACCES (by decide) (by decide)⟩,
   ⟨by decide,
    probeErrorPropagation.2.1 .EACCES (by decide) (by decide)⟩⟩

/-- Claim C8 counterexample: `haveNestedMaps` discards the descriptor its
trial returns (`_, err := sys.MapCreate(...)`), so on the exit path where
the trial succeeds the created kernel object is never released. -/
theorem haveNestedMaps_leaks_on_success :
    (haveNestedMapsRun false (Except.ok 3)).2 = [] ∧
    openedFDs (Except.ok 3) = [3] := by
  exact ⟨rfl, rfl⟩

/-- Claim C8 (amended): the probes that bind the descriptor of their
trial (`haveMmapableMaps`, `haveObjName`, `haveBatchAPI`) close it on
every exit path; the deliberately-invalid-input probes
(`haveNestedMaps`, `haveProgramExtInfos`) discard the trial's return
value, which releases every created object on every failing trial — the
only outcomes they anticipate — but would leak a successful trial's
descriptor. -/
theorem probeResourceRelease :
    (∀ r : TrialResult, (haveMmapableMapsRun r).2 = openedFDs r) ∧
    (∀ r : TrialResult, (haveObjNameRun false r).2 = openedFDs r) ∧
    (∀ (r : TrialResult) (u : Option Errno), (haveBatchAPIRun r u).2 = openedFDs r) ∧
    (∀ e : Errno,
      (haveNestedMapsRun false (Except.error e)).2 = openedFDs (Except.error e)) ∧
    (∀ e : Errno,
      (haveProgramExtInfosRun (Except.error e)).2 = openedFDs (Except.error e)) := by
  refine ⟨?_, ?_, ?_, ?_, ?_⟩
  · intro r
    cases r <;> rfl
  · intro r
    cases r <;> rfl
  · intro r u
    cases r <;> cases u <;> rfl
  · intro e
    cases e <;> rfl
  · intro e
    cases e <;> rfl

/-! ## Claims about the reference linker -/

/-- Claim C1: in every universe in which each reference reachable from
the entry is satisfied — cyclic universes included — linking the entry
succeeds (the traversal is a total function, so it terminates), the
flattened stream concatenates the blocks of the merged names, which are
pairwise distinct and include every reachable subprogram (so each
reachable subprogram's instructions are merged exactly once), and for
every reference-tagged call site of the output, the call-site index plus
the computed signed relative offset equals the index of the instruction
carrying the target symbol. -/
theorem linkProgram_correct
    (progs : List (String × List Instruction)) (entry : String)
    (entryInsns : List Instruction)
    (hnodup : (univNames progs).Nodup)
    (hentry : lookupProg progs entry = some entryInsns)
    (hsat : ∀ n r, Reachable progs entry n → r ∈ refsOfName progs n →
      ∃ ins, lookupProg progs r = some ins ∧ firstSymbol ins = some r) :
    ∃ out, linkProgram progs entry = Except.ok out ∧
      (mergedNames progs entry).Nodup ∧
      (∀ n, Reachable progs entry n → (lookupProg progs n).isSome →
        n ∈ mergedNames progs entry) ∧
      (∀ n ∈ mergedNames progs entry, Reachable progs entry n) ∧
      flattenInstructions entry progs =
        (mergedNames progs entry).flatMap (insnsOf progs) ∧
      ∀ i r (hi : i < out.length),
        (out.get ⟨i, hi⟩).reference = some r →
        ∃ j, ∃ hj : j < out.length, (out.get ⟨j, hj⟩).symbol = some r ∧
          (out.get ⟨i, hi⟩).offset = (j : Int) - (i : Int) := by
  have hflat := flatten_eq_flatMap progs entry entryInsns hentry
  have hsound := mergedNames_sound progs entry entryInsns hentry
  have hcomplete := reachable_mem_mergedNames progs entry entryInsns hnodup hentry
  have hnodupM := mergedNames_nodup progs entry entryInsns hnodup hentry
  have hstreamsat : ∀ ins ∈ flattenInstructions entry progs, ∀ r,
      ins.reference = some r →
      ∃ ins2 ∈ flattenInstructions entry progs, ins2.symbol = some r := by
    intro ins hins r href
    rw [hflat] at hins
    obtain ⟨n, hnmem, hinsn⟩ := List.mem_flatMap.mp hins
    have hreach_n := hsound n hnmem
    have hrref : r ∈ refsOfName progs n := by
      unfold refsOfName referencesOf
      exact List.mem_filterMap.mpr ⟨ins, hinsn, href⟩
    obtain ⟨insR, hlookR, hfirstR⟩ := hsat n r hreach_n hrref
    have hrmem : r ∈ mergedNames progs entry :=
      hcomplete r (Reachable.step hreach_n hrref) (by rw [hlookR]; rfl)
    obtain ⟨i0, rest0, heq0, hsym0⟩ :
        ∃ i0 rest0, insR = i0 :: rest0 ∧ i0.symbol = some r := by
      cases insR with
      | nil => simp [firstSymbol] at hfirstR
      | cons i0 rest0 => exact ⟨i0, rest0, rfl, by simpa [firstSymbol] using hfirstR⟩
    refine ⟨i0, ?_, hsym0⟩
    rw [hflat]
    refine List.mem_flatMap.mpr ⟨r, hrmem, ?_⟩
    rw [show insnsOf progs r = insR from by simp [insnsOf, hlookR], heq0]
    exact List.mem_cons_self _ _
  obtain ⟨out, hout⟩ :=
    @fixupFrom_ok_of_sat (flattenInstructions entry progs)
      (flattenInstructions entry progs) 0
      (fun ins hins r href => by
        obtain ⟨ins2, hins2, hsym2⟩ := hstreamsat ins hins r href
        exact symbolIndex_isSome_of_mem hins2 hsym2)
  refine ⟨out, hout, hnodupM, hcomplete, hsound, hflat, ?_⟩
  obtain ⟨hlen, hspec⟩ :=
    fixupFrom_ok_spec (flattenInstructions entry progs) 0 out hout
  intro i r hi href
  have hi2 : i < (flattenInstructions entry progs).length := by
    rw [← hlen]; exact hi
  obtain ⟨hsymEq, hrefEq, hoff⟩ := hspec i hi2 hi
  have hrefs : ((flattenInstructions entry progs).get ⟨i, hi2⟩).reference = some r := by
    rw [← hrefEq]; exact href
  obtain ⟨j, hjidx, hjoff⟩ := hoff r hrefs
  obtain ⟨hjlt, hjsym⟩ := symbolIndex_some_spec hjidx
  have hjlt2 : j < out.length := by rw [hlen]; exact hjlt
  obtain ⟨hsymEq2, h2, h3⟩ := hspec j hjlt hjlt2
  refine ⟨j, hjlt2, ?_, ?_⟩
  · rw [hsymEq2]; exact hjsym
  · rw [hjoff]
    norm_num

/-- Witness for claim C1 on the cyclic universe in which `A` calls `B`
and `B` calls back into `A`. -/
theorem linkProgram_correct_witness :
    ((univNames abUniv).Nodup ∧
     lookupProg abUniv "A" = some abProgA ∧
     (∀ n r, Reachable abUniv "A" n → r ∈ refsOfName abUniv n →
       ∃ ins, lookupProg abUniv r = some ins ∧ firstSymbol ins = some r)) ∧
    (∃ out, linkProgram abUniv "A" = Except.ok out ∧
      (mergedNames abUniv "A").Nodup ∧
      (∀ n, Reachable abUniv "A" n → (lookupProg abUniv n).isSome →
        n ∈ mergedNames abUniv "A") ∧
      (∀ n ∈ mergedNames abUniv "A", Reachable abUniv "A" n) ∧
      flattenInstructions "A" abUniv =
        (mergedNames abUniv "A").flatMap (insnsOf abUniv) ∧
      ∀ i r (hi : i < out.length),
        (out.get ⟨i, hi⟩).reference = some r →
        ∃ j, ∃ hj : j < out.length, (out.get ⟨j, hj⟩).symbol = some r ∧
          (out.get ⟨i, hi⟩).offset = (j : Int) - (i : Int)) := by
  have hreach : ∀ n, Reachable abUniv "A" n → n = "A" ∨ n = "B" := by
    intro n h
    induction h with
    | entry => exact Or.inl rfl
    | @step m r hm hr ih =>
      rcases ih with rfl | rfl
      · rw [show refsOfName abUniv "A" = ["B"] from by decide] at hr
        exact Or.inr (List.mem_singleton.mp hr)
      · rw [show refsOfName abUniv "B" = ["A"] from by decide] at hr
        exact Or.inl (List.mem_singleton.mp hr)
  have hsat : ∀ n r, Reachable abUniv "A" n → r ∈ refsOfName abUniv n →
      ∃ ins, lookupProg abUniv r = some ins ∧ firstSymbol ins = some r := by
    intro n r hn hr
    rcases hreach n hn with rfl | rfl
    · rw [show refsOfName abUniv "A" = ["B"] from by decide] at hr
      obtain rfl := List.mem_singleton.mp hr
      exact ⟨abProgB, by decide, by decide⟩
    · rw [show refsOfName abUniv "B" = ["A"] from by decide] at hr
      obtain rfl := List.mem_singleton.mp hr
      exact ⟨abProgA, by decide, by decide⟩
  exact ⟨⟨by decide, by decide, hsat⟩,
    linkProgram_correct abUniv "A" abProgA (by decide) (by decide) hsat⟩

/-- Claim C6: an entry containing a reference that no symbol of the final
merged set satisfies fails to link with an unsatisfied-reference error
naming the missing symbol, and the failure is recoverable — appending to
the same specification instructions that carry the missing name as a
symbol tag makes re-linking the same entry succeed. -/
theorem linkProgram_unsatisfied
    (progs progs2 : List (String × List Instruction)) (entry : String)
    (entryInsns ext : List Instruction) (r : String)
    (hnodup : (univNames progs).Nodup)
    (hentry : lookupProg progs entry = some entryInsns)
    (hr : r ∈ referencesOf entryInsns)
    (hmiss : ∀ ins ∈ flattenInstructions entry progs, ins.symbol ≠ some r)
    (hothers : ∀ ins ∈ flattenInstructions entry progs, ∀ r2,
      ins.reference = some r2 → r2 ≠ r →
      ∃ ins2 ∈ flattenInstructions entry progs, ins2.symbol = some r2)
    (hext : ∃ insE ∈ ext, insE.symbol = some r)
    (hextnoref : ∀ insE ∈ ext, insE.reference = none)
    (hentry2 : lookupProg progs2 entry = some (entryInsns ++ ext))
    (hsame : ∀ n, n ≠ entry → lookupProg progs2 n = lookupProg progs n)
    (hnames : univNames progs2 = univNames progs) :
    linkProgram progs entry = Except.error r ∧
    ∃ out, linkProgram progs2 entry = Except.ok out := by
  have hne : referencesOf entryInsns ≠ [] := List.ne_nil_of_mem hr
  have hstream : flattenInstructions entry progs =
      entryInsns ++
        (gather progs (referencesOf entryInsns)
          ((univNames progs).erase entry)).flatMap (insnsOf progs) := by
    rw [flattenInstructions_eq progs entry entryInsns hentry, if_neg hne]
  have hnone : symbolIndex (flattenInstructions entry progs) r = none :=
    symbolIndex_none_of_absent hmiss
  constructor
  · show fixupFrom (flattenInstructions entry progs) 0
      (flattenInstructions entry progs) = Except.error r
    apply fixupFrom_error_of hnone
    · intro ins hins r2 href2 hidx2
      by_contra hner
      obtain ⟨ins2, hins2, hsym2⟩ := hothers ins hins r2 href2 hner
      have hsome := symbolIndex_isSome_of_mem hins2 hsym2
      rw [hidx2] at hsome
      simp at hsome
    · unfold referencesOf at hr
      obtain ⟨ins, hins, hinsr⟩ := List.mem_filterMap.mp hr
      refine ⟨ins, ?_, hinsr⟩
      rw [hstream]
      exact List.mem_append_left _ hins
  · have hrefs2 : referencesOf (entryInsns ++ ext) = referencesOf entryInsns := by
      unfold referencesOf
      rw [List.filterMap_append, List.filterMap_eq_nil_iff.mpr hextnoref, List.append_nil]
    have hne2 : referencesOf (entryInsns ++ ext) ≠ [] := by
      rw [hrefs2]; exact hne
    have hgather_eq :
        gather progs2 (referencesOf entryInsns) ((univNames progs).erase entry) =
        gather progs (referencesOf entryInsns) ((univNames progs).erase entry) := by
      apply gather_congr
      intro x hx
      have hxne : x ≠ entry := ((hnodup.mem_erase_iff).mp hx).1
      unfold refsOfName insnsOf
      rw [hsame x hxne]
    have hflat_eq :
        (gather progs (referencesOf entryInsns)
          ((univNames progs).erase entry)).flatMap (insnsOf progs2) =
        (gather progs (referencesOf entryInsns)
          ((univNames progs).erase entry)).flatMap (insnsOf progs) := by
      apply flatMap_congr_mem
      intro x hx
      obtain ⟨g1, _, _, _⟩ := gather_spec progs (referencesOf entryInsns)
        ((univNames progs).erase entry) (hnodup.erase _)
      have hxne : x ≠ entry := ((hnodup.mem_erase_iff).mp (g1 x hx)).1
      unfold insnsOf
      rw [hsame x hxne]
    have hstream2 : flattenInstructions entry progs2 =
        (entryInsns ++ ext) ++
          (gather progs (referencesOf entryInsns)
            ((univNames progs).erase entry)).flatMap (insnsOf progs) := by
      rw [flattenInstructions_eq progs2 entry (entryInsns ++ ext) hentry2,
        if_neg hne2, hrefs2, hnames, hgather_eq, hflat_eq]
    have hsat2 : ∀ ins ∈ flattenInstructions entry progs2, ∀ r2,
        ins.reference = some r2 →
        (symbolIndex (flattenInstructions entry progs2) r2).isSome := by
      intro ins hins r2 href2
      rw [hstream2] at hins
      have hins3 : ins ∈ entryInsns ∨ ins ∈ ext ∨
          ins ∈ (gather progs (referencesOf entryInsns)
            ((univNames progs).erase entry)).flatMap (insnsOf progs) := by
        rcases List.mem_append.mp hins with h | h
        · rcases List.mem_append.mp h with h2 | h2
          · exact Or.inl h2
          · exact Or.inr (Or.inl h2)
        · exact Or.inr (Or.inr h)
      have hins_stream : ins ∈ flattenInstructions entry progs := by
        rcases hins3 with h | h | h
        · rw [hstream]; exact List.mem_append_left _ h
        · rw [hextnoref ins h] at href2; cases href2
        · rw [hstream]; exact List.mem_append_right _ h
      by_cases hr2r : r2 = r
      · subst hr2r
        obtain ⟨insE, hinsE, hsymE⟩ := hext
        refine symbolIndex_isSome_of_mem ?_ hsymE
        rw [hstream2]
        exact List.mem_append_left _ (List.mem_append_right _ hinsE)
      · obtain ⟨ins2, hins2, hsym2⟩ := hothers ins hins_stream r2 href2 hr2r
        refine symbolIndex_isSome_of_mem ?_ hsym2
        rw [hstream2]
        rw [hstream] at hins2
        rcases List.mem_append.mp hins2 with h | h
        · exact List.mem_append_left _ (List.mem_append_left _ h)
        · exact List.mem_append_right _ h
    obtain ⟨out, hout⟩ :=
      @fixupFrom_ok_of_sat (flattenInstructions entry progs2)
        (flattenInstructions entry progs2) 0 hsat2
    exact ⟨out, hout⟩

/-- Witness for claim C6 on the `TestForwardFunctionDeclaration`
scenario: `call_fwd` calls the undefined `fwd`, then its definition is
appended. -/
theorem linkProgram_unsatisfied_witness :
    ((univNames fwdUniv).Nodup ∧
     lookupProg fwdUniv "call_fwd" = some fwdCallIns ∧
     "fwd" ∈ referencesOf fwdCallIns ∧
     (∀ ins ∈ flattenInstructions "call_fwd" fwdUniv, ins.symbol ≠ some "fwd") ∧
     (∀ ins ∈ flattenInstructions "call_fwd" fwdUniv, ∀ r2,
       ins.reference = some r2 → r2 ≠ "fwd" →
       ∃ ins2 ∈ flattenInstructions "call_fwd" fwdUniv, ins2.symbol = some r2) ∧
     (∃ insE ∈ fwdExt, insE.symbol = some "fwd") ∧
     (∀ insE ∈ fwdExt, insE.reference = none) ∧
     lookupProg fwdUnivFixed "call_fwd" = some (fwdCallIns ++ fwdExt) ∧
     (∀ n, n ≠ "call_fwd" → lookupProg fwdUnivFixed n = lookupProg fwdUniv n) ∧
     univNames fwdUnivFixed = univNames fwdUniv) ∧
    (linkProgram fwdUniv "call_fwd" = Except.error "fwd" ∧
     ∃ out, linkProgram fwdUnivFixed "call_fwd" = Except.ok out) := by
  have hg : gather fwdUniv ["fwd"] ([] : List String) = [] := by
    rw [gather, if_neg (List.not_mem_nil _), gather]
  have hstreameq : flattenInstructions "call_fwd" fwdUniv = fwdCallIns := by
    rw [flattenInstructions_eq fwdUniv "call_fwd" fwdCallIns (by decide),
      if_neg (by decide),
      show (univNames fwdUniv).erase "call_fwd" = [] from by decide,
      show referencesOf fwdCallIns = ["fwd"] from by decide, hg]
    rfl
  have hmiss : ∀ ins ∈ flattenInstructions "call_fwd" fwdUniv,
      ins.symbol ≠ some "fwd" := by
    rw [hstreameq]
    decide
  have hothers : ∀ ins ∈ flattenInstructions "call_fwd" fwdUniv, ∀ r2,
      ins.reference = some r2 → r2 ≠ "fwd" →
      ∃ ins2 ∈ flattenInstructions "call_fwd" fwdUniv, ins2.symbol = some r2 := by
    rw [hstreameq]
    intro ins hins r2 href2 hner
    rcases List.mem_cons.mp hins with rfl | hins2
    · obtain rfl : r2 = "fwd" := by simpa using href2.symm
      exact absurd rfl hner
    · rcases List.mem_cons.mp hins2 with rfl | hnil
      · exact absurd href2 (by simp)
      · cases hnil
  have hsame : ∀ n, n ≠ "call_fwd" →
      lookupProg fwdUnivFixed n = lookupProg fwdUniv n := by
    intro n hn
    simp only [fwdUnivFixed, fwdUniv, lookupProg]
    rw [if_neg (fun h => hn h.symm), if_neg (fun h => hn h.symm)]
  obtain ⟨hfail, hrec⟩ :=
    linkProgram_unsatisfied fwdUniv fwdUnivFixed "call_fwd" fwdCallIns fwdExt "fwd"
      (by decide) (by decide) (by decide) hmiss hothers (by decide) (by decide)
      (by decide) hsame (by decide)
  exact ⟨⟨by decide, by decide, by decide, hmiss, hothers, by decide, by decide,
    by decide, hsame, by decide⟩, hfail, hrec⟩

/-- Claim C2: an entry whose instruction sequence carries no outstanding
reference tag is returned by the linker as-is — the entry's own
instruction sequence, untransformed. -/
theorem flattenInstructions_no_refs
    (progs : List (String × List Instruction)) (name : String)
    (insns : List Instruction)
    (hlook : lookupProg progs name = some insns)
    (hrefs : referencesOf insns = []) :
    flattenInstructions name progs = insns := by
  rw [flattenInstructions_eq progs name insns hlook, if_pos hrefs]

/-- Witness for claim C2 on the reference-free entry of
`TestFlattenInstructionsAllocations`. -/
theorem flattenInstructions_no_refs_witness :
    (lookupProg soloUniv "entrypoint" = some soloIns ∧
      referencesOf soloIns = []) ∧
    flattenInstructions "entrypoint" soloUniv = soloIns :=
  ⟨⟨by decide, by decide⟩,
   flattenInstructions_no_refs soloUniv "entrypoint" soloIns (by decide) (by decide)⟩

/-! ## Claims about the symbol splitter -/

/-- What the right-to-left scan of `splitAux` produces: the block names
are the symbol tags in order, the pending prefix and the blocks
concatenate back to the input, the pending prefix is symbol-free, and
every block starts at its own symbol tag and contains no further tag. -/
theorem splitAux_spec :
    ∀ insns : List Instruction,
      ((splitAux insns).2.map Prod.fst = symbolTags insns) ∧
      ((splitAux insns).1 ++ ((splitAux insns).2.map Prod.snd).flatten = insns) ∧
      (∀ x ∈ (splitAux insns).1, x.symbol = none) ∧
      (∀ b ∈ (splitAux insns).2, ∃ i rest2, b.2 = i :: rest2 ∧
        i.symbol = some b.1 ∧ ∀ x ∈ rest2, x.symbol = none) := by
  intro insns
  induction insns with
  | nil =>
    refine ⟨rfl, rfl, ?_, ?_⟩ <;> intro x hx <;> cases hx
  | cons i rest ih =>
    obtain ⟨ih1, ih2, ih3, ih4⟩ := ih
    cases hsp : splitAux rest with
    | mk pend blocks =>
      rw [hsp] at ih1 ih2 ih3 ih4
      cases hs : i.symbol with
      | none =>
        have heq : splitAux (i :: rest) = (i :: pend, blocks) := by
          simp [splitAux, hsp, hs]
        rw [heq]
        refine ⟨?_, ?_, ?_, ?_⟩
        · rw [show symbolTags (i :: rest) = symbolTags rest from by
            simp [symbolTags, List.filterMap_cons, hs]]
          exact ih1
        · show (i :: pend) ++ (blocks.map Prod.snd).flatten = i :: rest
          rw [List.cons_append, ih2]
        · intro x hx
          rcases List.mem_cons.mp hx with rfl | h
          · exact hs
          · exact ih3 x h
        · exact ih4
      | some s =>
        have heq : splitAux (i :: rest) = ([], (s, i :: pend) :: blocks) := by
          simp [splitAux, hsp, hs]
        rw [heq]
        refine ⟨?_, ?_, ?_, ?_⟩
        · show s :: blocks.map Prod.fst = symbolTags (i :: rest)
          rw [show symbolTags (i :: rest) = s :: symbolTags rest from by
            simp [symbolTags, List.filterMap_cons, hs], ih1]
        · show [] ++ ((i :: pend) :: blocks.map Prod.snd).flatten = i :: rest
          rw [List.nil_append, List.flatten_cons, List.cons_append, ih2]
        · intro x hx
          cases hx
        · intro b hb
          rcases List.mem_cons.mp hb with rfl | h
          · exact ⟨i, pend, rfl, hs, ih3⟩
          · exact ih4 b h

/-- Claim C7: `splitSymbols` fails on empty input, fails when the first
instruction carries no symbol tag, fails when a symbol name repeats
anywhere, and on every other input returns one entry per symbol tag, in
order, each entry's block being the contiguous sub-sequence from its
symbol-tagged instruction to the next tag or the end of the input. -/
theorem splitSymbols_spec :
    (splitSymbols [] = .error "missing leading symbol") ∧
    (∀ (i : Instruction) (rest : List Instruction), i.symbol = none →
      splitSymbols (i :: rest) = .error "missing leading symbol") ∧
    (∀ insns : List Instruction, firstSymbol insns ≠ none →
      ¬ (symbolTags insns).Nodup →
      splitSymbols insns = .error "duplicate symbol") ∧
    (∀ insns : List Instruction, firstSymbol insns ≠ none →
      (symbolTags insns).Nodup →
      ∃ blocks, splitSymbols insns = .ok blocks ∧
        blocks.map Prod.fst = symbolTags insns ∧
        (blocks.map Prod.snd).flatten = insns ∧
        ∀ b ∈ blocks, ∃ i rest2, b.2 = i :: rest2 ∧ i.symbol = some b.1 ∧
          ∀ x ∈ rest2, x.symbol = none) := by
  have key : ∀ (i : Instruction) (rest : List Instruction) (s : String),
      i.symbol = some s →
      ((s, i :: (splitAux rest).1) :: (splitAux rest).2).map Prod.fst =
        symbolTags (i :: rest) ∧
      ((((s, i :: (splitAux rest).1) :: (splitAux rest).2).map Prod.snd).flatten =
        i :: rest) ∧
      (∀ b ∈ (s, i :: (splitAux rest).1) :: (splitAux rest).2,
        ∃ i2 rest2, b.2 = i2 :: rest2 ∧ i2.symbol = some b.1 ∧
          ∀ x ∈ rest2, x.symbol = none) := by
    intro i rest s hs
    obtain ⟨a1, a2, a3, a4⟩ := splitAux_spec (i :: rest)
    have heq : splitAux (i :: rest) = ([], (s, i :: (splitAux rest).1) ::
        (splitAux rest).2) := by
      cases hsp : splitAux rest with
      | mk pend blocks => simp [splitAux, hsp, hs]
    rw [heq] at a1 a2 a4
    exact ⟨a1, by simpa using a2, a4⟩
  refine ⟨rfl, ?_, ?_, ?_⟩
  · intro i rest h
    simp [splitSymbols, h]
  · intro insns h1 h2
    cases insns with
    | nil => exact absurd rfl h1
    | cons i rest =>
      cases hs : i.symbol with
      | none => exact absurd (show firstSymbol (i :: rest) = none from hs) h1
      | some s =>
        obtain ⟨k1, k2, k3⟩ := key i rest s hs
        have hnd : ¬ (((s, i :: (splitAux rest).1) ::
            (splitAux rest).2).map Prod.fst).Nodup := by
          rw [k1]; exact h2
        have hsplit_eq : splitSymbols (i :: rest) =
            if (((s, i :: (splitAux rest).1) ::
                (splitAux rest).2).map Prod.fst).Nodup
            then .ok ((s, i :: (splitAux rest).1) :: (splitAux rest).2)
            else .error "duplicate symbol" := by
          simp only [splitSymbols, hs]
        rw [hsplit_eq, if_neg hnd]
  · intro insns h1 h2
    cases insns with
    | nil => exact absurd rfl h1
    | cons i rest =>
      cases hs : i.symbol with
      | none => exact absurd (show firstSymbol (i :: rest) = none from hs) h1
      | some s =>
        obtain ⟨k1, k2, k3⟩ := key i rest s hs
        have hnd : (((s, i :: (splitAux rest).1) ::
            (splitAux rest).2).map Prod.fst).Nodup := by
          rw [k1]; exact h2
        have hsplit_eq : splitSymbols (i :: rest) =
            if (((s, i :: (splitAux rest).1) ::
                (splitAux rest).2).map Prod.fst).Nodup
            then .ok ((s, i :: (splitAux rest).1) :: (splitAux rest).2)
            else .error "duplicate symbol" := by
          simp only [splitSymbols, hs]
        refine ⟨(s, i :: (splitAux rest).1) :: (splitAux rest).2, ?_, k1, k2, k3⟩
        rw [hsplit_eq, if_pos hnd]

/-- Witness for claim C7 on the four-block input of `TestSplitSymbols`:
the returned entries carry `sym1` .. `sym4` with block lengths 1, 2, 3
and 4, in order. -/
theorem splitSymbols_spec_witness :
    (firstSymbol splitInput4 ≠ none ∧ (symbolTags splitInput4).Nodup) ∧
    (∃ blocks, splitSymbols splitInput4 = .ok blocks ∧
      blocks.map Prod.fst = symbolTags splitInput4 ∧
      (blocks.map Prod.snd).flatten = splitInput4 ∧
      ∀ b ∈ blocks, ∃ i rest2, b.2 = i :: rest2 ∧ i.symbol = some b.1 ∧
        ∀ x ∈ rest2, x.symbol = none) ∧
    (splitSymbols splitInput4).toOption.map
      (fun bs => bs.map (fun b => (b.1, b.2.length))) =
      some [("sym1", 1), ("sym2", 2), ("sym3", 3), ("sym4", 4)] :=
  ⟨⟨by decide, by decide⟩,
   splitSymbols_spec.2.2.2 splitInput4 (by decide) (by decide),
   by decide⟩

end Ebpf
